import Mathlib

/-!
# Verification of `koa-mock-ctx` (context synthesis engine and `compose` dispatcher)

This file shallowly embeds the core of `src/index.ts` (the type-safe engine
variant, which is the one the package currently exports):

* JS objects whose keys matter are modelled as association lists
  (`Rec α := List (String × α)`) where a later binding shadows an earlier one,
  matching the semantics of object spread (`{...a, ...b}`) and of key
  assignment (`obj[k] = v` is modelled by appending the binding).
* `mergedForCloning`, `normalizeHeaders`, `createUploadedFile`,
  `processMockFiles` and the body of `createMockGenerator` are translated
  function by function.  `structuredClone` is the identity on the pure data
  model (the option record is cloned after the `app` field — which we do not
  model — has been split off), so it does not appear explicitly.
* `new Date()` is modelled by an explicit `now` parameter supplied at
  synthesis time.
-/

namespace KoaMock

/-- A primitive JS value (enough for bodies and state bags). -/
inductive Val : Type
  | num (n : Int)
  | str (s : String)
  deriving DecidableEq, Repr

/-- A header value: a string or an array of strings. -/
inductive HdrVal : Type
  | str (s : String)
  | list (l : List String)
  deriving DecidableEq, Repr

/-- A JS object with string keys, as an association list.  A binding that
occurs later in the list shadows an earlier binding of the same key, which is
how both object spread and repeated assignment behave. -/
abbrev Rec (α : Type) := List (String × α)

/-- Lookup in a JS object: the value of the *last* binding of `k`. -/
def rget {α : Type} : Rec α → String → Option α
  | [], _ => none
  | (k', v) :: rest, k =>
    match rget rest k with
    | some w => some w
    | none => if k' = k then some v else none

/-- `{...a, ...b}` : all bindings of `a` followed by all bindings of `b`;
on lookup, `b`'s bindings win. -/
def spread {α : Type} (a b : Rec α) : Rec α := a ++ b

theorem rget_append {α : Type} (a b : Rec α) (k : String) :
    rget (a ++ b) k = ((rget b k).orElse fun _ => rget a k) := by
  induction a with
  | nil => cases h : rget b k <;> simp [rget, Option.orElse, h]
  | cons p a ih =>
    obtain ⟨k', v⟩ := p
    cases h : rget b k <;> cases h' : rget a k <;>
      simp [rget, ih, Option.orElse, h, h']

/-- File descriptor supplied by the test (`MockFile`): only the path is
required. -/
structure MockFile where
  filepath : String
  size : Option Nat := none
  originalFilename : Option String := none
  mimetype : Option String := none
  deriving DecidableEq, Repr

/-- Materialized upload record (`UploadedFile`). -/
structure UploadedFile where
  size : Nat
  filepath : String
  originalFilename : Option String
  mimetype : Option String
  lastModifiedDate : Option Nat
  deriving DecidableEq, Repr

/-- A `files` entry is a single descriptor or an array of them. -/
inductive FilesEntry (φ : Type) : Type
  | single (f : φ)
  | many (fs : List φ)
  deriving DecidableEq, Repr

/-- `MockContextOptions`: every field is optional (`none` = the key is absent
from the JS object). -/
structure MockContextOptions where
  status : Option Nat := none
  body : Option Val := none
  message : Option String := none
  headers : Option (Rec HdrVal) := none
  method : Option String := none
  url : Option String := none
  host : Option String := none
  hostname : Option String := none
  protocol : Option String := none
  requestHeaders : Option (Rec HdrVal) := none
  cookies : Option (Rec String) := none
  state : Option (Rec Val) := none
  files : Option (Rec (FilesEntry MockFile)) := none
  deriving DecidableEq, Repr

/-- `key.toLowerCase()`: lower-case a string character-wise (defined on the
character list so that it evaluates by kernel reduction). -/
def jsToLower (s : String) : String :=
  String.mk (s.data.map Char.toLower)

/-- `normalizeHeaders`: copy each binding with the key lower-cased.  The JS
loop assigns into a fresh object, so a later binding overwrites an earlier one
with the same lower-cased key — which is exactly the last-wins semantics of
`rget` on the mapped list. -/
def normalizeHeaders (headers : Rec HdrVal) : Rec HdrVal :=
  headers.map fun kv => (jsToLower kv.1, kv.2)

/-- `createUploadedFile` (`now` models `new Date()` at synthesis time). -/
def createUploadedFile (now : Nat) (mockFile : MockFile) : UploadedFile :=
  { size := mockFile.size.getD 0
    filepath := mockFile.filepath
    originalFilename := some (mockFile.originalFilename.getD "mockfile.txt")
    mimetype := some (mockFile.mimetype.getD "application/octet-stream")
    lastModifiedDate := some now }

/-- `processMockFiles`: normalize each entry (lists element-wise). -/
def processMockFiles (now : Nat) (files : Rec (FilesEntry MockFile)) :
    Rec (FilesEntry UploadedFile) :=
  files.map fun kv =>
    (kv.1,
      match kv.2 with
      | .single f => .single (createUploadedFile now f)
      | .many fs => .many (fs.map (createUploadedFile now)))

/-- The merge performed at the top of the generator (`mergedForCloning`):
flat spread of base and override (scalar fields: override when present, else
base), with the mapping fields rebuilt explicitly: `state`, `cookies`
key-wise merged; `headers` built from base headers, base requestHeaders,
override headers, override requestHeaders in that spread order; `files`
merged only when at least one layer supplies it (`{}` is truthy in JS, so
presence is what the `||` tests). -/
def mergedForCloning (baseOptions overrideOptions : MockContextOptions) :
    MockContextOptions :=
  { status := overrideOptions.status <|> baseOptions.status
    body := overrideOptions.body <|> baseOptions.body
    message := overrideOptions.message <|> baseOptions.message
    method := overrideOptions.method <|> baseOptions.method
    url := overrideOptions.url <|> baseOptions.url
    host := overrideOptions.host <|> baseOptions.host
    hostname := overrideOptions.hostname <|> baseOptions.hostname
    protocol := overrideOptions.protocol <|> baseOptions.protocol
    requestHeaders :=
      overrideOptions.requestHeaders <|> baseOptions.requestHeaders
    state :=
      some (spread (baseOptions.state.getD []) (overrideOptions.state.getD []))
    headers :=
      some ((baseOptions.headers.getD []) ++
        (baseOptions.requestHeaders.getD []) ++
        (overrideOptions.headers.getD []) ++
        (overrideOptions.requestHeaders.getD []))
    cookies :=
      some (spread (baseOptions.cookies.getD [])
        (overrideOptions.cookies.getD []))
    files :=
      if baseOptions.files.isSome || overrideOptions.files.isSome then
        some (spread (baseOptions.files.getD [])
          (overrideOptions.files.getD []))
      else none }

/-- JS truthiness of a header value: only the empty string is falsy
(an array, even empty, is truthy). -/
def hdrTruthy : HdrVal → Bool
  | .str s => s ≠ ""
  | .list _ => true

/-- `s.includes(pat)` on strings: substring test. -/
def strIncludes (s pat : String) : Bool :=
  (List.range (s.length + 1)).any fun i =>
    pat.toList.isPrefixOf (s.toList.drop i)

/-- `(normalizedHeaders['content-type'] || '').includes('multipart/form-data')`:
on a missing or falsy value this tests `''` (false); on a string it is a
substring test; on an array `Array.prototype.includes` is element membership. -/
def declaresMultipart (v : Option HdrVal) : Bool :=
  match v with
  | none => false
  | some (.str s) => strIncludes s "multipart/form-data"
  | some (.list l) => l.contains "multipart/form-data"

/-- The request object assembled by the generator. -/
structure MockKoaRequest where
  body : Option Val
  files : Option (Rec (FilesEntry UploadedFile))
  headers : Rec HdrVal
  method : String
  url : String
  host : String
  hostname : String
  protocol : String
  secure : Bool
  deriving DecidableEq, Repr

/-- The response object assembled by the generator. -/
structure MockKoaResponse where
  status : Nat
  body : Option Val
  message : String
  headers : Rec HdrVal
  deriving DecidableEq, Repr

/-- The context: the unifying node (request, response, state bag, cookie
store). -/
structure MockKoaContext where
  request : MockKoaRequest
  response : MockKoaResponse
  state : Rec Val
  cookies : Rec String
  deriving DecidableEq, Repr

/-- `request.get(field)`: look the field up lower-cased; join array values
with commas; an absent header reads as `undefined` (`none`). -/
def MockKoaRequest.get (r : MockKoaRequest) (field : String) : Option String :=
  match rget r.headers (jsToLower field) with
  | none => none
  | some (.str s) => some s
  | some (.list l) => some (String.intercalate "," l)

/-- `ctx.get` delegates to `request.get`. -/
def MockKoaContext.get (c : MockKoaContext) (field : String) : Option String :=
  c.request.get field

/-- `ctx.body` delegates to `response.body`. -/
def MockKoaContext.body (c : MockKoaContext) : Option Val :=
  c.response.body

/-- `ctx.requestBody` delegates to `request.body`. -/
def MockKoaContext.requestBody (c : MockKoaContext) : Option Val :=
  c.request.body

/-- `ctx.status` delegates to `response.status`. -/
def MockKoaContext.status (c : MockKoaContext) : Nat :=
  c.response.status

/-- The `normalizedHeaders` object of one generator call. -/
def normalizedOf (baseOptions overrideOptions : MockContextOptions) :
    Rec HdrVal :=
  normalizeHeaders
    ((mergedForCloning baseOptions overrideOptions).headers.getD [])

/-- The value at `normalizedHeaders['content-type']`. -/
def ctOf (baseOptions overrideOptions : MockContextOptions) : Option HdrVal :=
  rget (normalizedOf baseOptions overrideOptions) "content-type"

/-- The `processedFiles` value: normalize the merged files when present;
otherwise an empty mapping exactly when the (normalized) content-type
already declares multipart, else absent. -/
def processedFilesOf (now : Nat)
    (baseOptions overrideOptions : MockContextOptions) :
    Option (Rec (FilesEntry UploadedFile)) :=
  match (mergedForCloning baseOptions overrideOptions).files with
  | some fs => some (processMockFiles now fs)
  | none =>
    if declaresMultipart (ctOf baseOptions overrideOptions) then some []
    else none

/-- The header store the request ends up with: when files are present and
`normalizedHeaders['content-type']` is missing or falsy, the assignment
`normalizedHeaders['content-type'] = 'multipart/form-data'` is performed
(modelled by appending a binding, which shadows any falsy one). -/
def finalHeadersOf (baseOptions overrideOptions : MockContextOptions) :
    Rec HdrVal :=
  match (mergedForCloning baseOptions overrideOptions).files with
  | some _ =>
    if ((ctOf baseOptions overrideOptions).map hdrTruthy).getD false then
      normalizedOf baseOptions overrideOptions
    else
      normalizedOf baseOptions overrideOptions ++
        [("content-type", .str "multipart/form-data")]
  | none => normalizedOf baseOptions overrideOptions

/-- The body of the generator returned by `createMockGenerator` (the
type-safe engine variant), for one call: merge, clone (identity on this pure
data model, after the unmodelled `app` field is split off), normalize
headers, process files, then assemble the request/response/context triad. -/
def createMockGenerator (now : Nat)
    (baseOptions overrideOptions : MockContextOptions) : MockKoaContext :=
  let options := mergedForCloning baseOptions overrideOptions
  { request :=
      { body := options.body
        files := processedFilesOf now baseOptions overrideOptions
        headers := finalHeadersOf baseOptions overrideOptions
        method := options.method.getD "GET"
        url := options.url.getD "/"
        host := options.host.getD "test.com"
        hostname := options.hostname.getD "test.com"
        protocol := options.protocol.getD "http"
        secure := options.protocol = some "https" }
    response :=
      { status := options.status.getD 200
        body := none
        message := options.message.getD "OK"
        headers := [] }
    state := options.state.getD []
    cookies := options.cookies.getD [] }

/-!
## The continuation-chain dispatcher (`compose`)

`compose` is higher-order JS: middleware receive the shared context and a
`proceed` continuation, and the dispatcher keeps a mutable cursor `index`
in a closure.  The embedding threads an explicit dispatcher state
(`DSt`: the context value, the cursor, and an event trace used to state
ordering properties) and draws middleware from a behaviour language
(`MwProg`): a middleware mutates the context, and then either returns,
throws synchronously, returns a rejected promise, or invokes `proceed` and —
after it settles — continues with an after-behaviour (`MwAfter`, which can
mutate and return, mutate and reject, or invoke `proceed` again, as a
middleware that calls `next()` twice does).  A rejection of an awaited
`proceed` propagates, as `await` does.

The recursion of `dispatch(i)` is paid for with explicit fuel; `composeRun`
supplies `middleware.length + 1`, which is exactly the number of times the
cursor guard can be passed (the guard is checked *before* fuel, like the
source checks `i <= index` first), so the out-of-fuel branch is unreachable
from `composeRun` — the theorems below prove trace/error shapes that the
out-of-fuel branch could not produce.
-/

/-- An error value travelling through the promise chain: either an `Error`
the dispatcher itself constructed (with its message) or a value thrown by a
middleware. -/
inductive ErrV (ε : Type) : Type
  | jsError (msg : String)
  | user (e : ε)
  deriving DecidableEq, Repr

/-- The fixed message of the double-invocation error. -/
def multipleNextMsg : String := "next() called multiple times"

/-- Trace events recorded by the instrumented dispatcher. -/
inductive Event : Type
  | enter (i : Nat)
  | final
  | exited (i : Nat)
  deriving DecidableEq, Repr

/-- Dispatcher state: the shared mutable context, the cursor `index`
(starts at `-1`), and the event trace. -/
structure DSt (σ : Type) where
  ctx : σ
  idx : Int
  trace : List Event

/-- A settled promise: the heap state at settlement plus `none` (resolved)
or `some e` (rejected with `e`). -/
structure Res (σ ε : Type) where
  st : DSt σ
  err : Option (ErrV ε)

/-- What a middleware does after its awaited `proceed` resolved. -/
inductive MwAfter (σ ε : Type) : Type
  | ret (f : σ → σ)
  | thr (f : σ → σ) (e : ε)
  | callNext (f : σ → σ) (rest : MwAfter σ ε)

/-- The behaviour of one middleware invocation. -/
inductive MwProg (σ ε : Type) : Type
  | ret (f : σ → σ)
  | thrSync (f : σ → σ) (e : ε)
  | rejectA (f : σ → σ) (e : ε)
  | callNext (f : σ → σ) (rest : MwAfter σ ε)

/-- The result of synchronously invoking `fn(context, proceed)`: either the
call threw synchronously, or it returned a (settled) promise. -/
inductive Invoke (σ ε : Type) : Type
  | sthrow (st : DSt σ) (e : ε)
  | settled (r : Res σ ε)

/-- Apply a context mutation. -/
def mutCtx {σ : Type} (f : σ → σ) (s : DSt σ) : DSt σ :=
  { s with ctx := f s.ctx }

/-- Run an after-behaviour; `cont` is the `proceed` continuation the
dispatcher handed to this middleware. -/
def runAfter {σ ε : Type} :
    MwAfter σ ε → (DSt σ → Res σ ε) → DSt σ → Res σ ε
  | .ret f, _, s => ⟨mutCtx f s, none⟩
  | .thr f e, _, s => ⟨mutCtx f s, some (.user e)⟩
  | .callNext f rest, cont, s =>
    let r := cont (mutCtx f s)
    match r.err with
    | some e => ⟨r.st, some e⟩
    | none => runAfter rest cont r.st

/-- Invoke one middleware with its `proceed` continuation. -/
def runProg {σ ε : Type} :
    MwProg σ ε → (DSt σ → Res σ ε) → DSt σ → Invoke σ ε
  | .ret f, _, s => .settled ⟨mutCtx f s, none⟩
  | .thrSync f e, _, s => .sthrow (mutCtx f s) e
  | .rejectA f e, _, s => .settled ⟨mutCtx f s, some (.user e)⟩
  | .callNext f rest, cont, s =>
    let r := cont (mutCtx f s)
    match r.err with
    | some e => .settled ⟨r.st, some e⟩
    | none => .settled (runAfter rest cont r.st)

/-- The `try/catch` around `fn(...)`: a synchronous throw becomes a
rejection (`Promise.reject(err)`); a returned promise is passed through
(`Promise.resolve(...)`). -/
def invokeRes {σ ε : Type} : Invoke σ ε → Res σ ε
  | .sthrow st e => ⟨st, some (.user e)⟩
  | .settled r => r

/-- `dispatch(i)`: fail if `i <= index` (cursor check, before anything
else); otherwise advance the cursor; past the end of the list invoke the
final continuation if given (recording `.final`), else resolve; otherwise
record `.enter i`, invoke the middleware with `() => dispatch(i+1)`, wrap a
synchronous throw into a rejection, and record `.exited i` when the
middleware's promise settles. -/
def dispatchF {σ ε : Type} (mws : List (MwProg σ ε)) (fin : Option (σ → σ)) :
    Nat → Nat → DSt σ → Res σ ε
  | fuel, i, s =>
    if (i : Int) ≤ s.idx then ⟨s, some (.jsError multipleNextMsg)⟩
    else
      match fuel with
      | 0 => ⟨s, none⟩
      | fuel' + 1 =>
        let s1 : DSt σ := { s with idx := (i : Int) }
        match mws[i]? with
        | none =>
          match fin with
          | some f => ⟨⟨f s1.ctx, s1.idx, s1.trace ++ [.final]⟩, none⟩
          | none => ⟨s1, none⟩
        | some p =>
          let s2 : DSt σ := { s1 with trace := s1.trace ++ [.enter i] }
          let r :=
            invokeRes (runProg p (fun s' => dispatchF mws fin fuel' (i + 1) s') s2)
          ⟨{ r.st with trace := r.st.trace ++ [.exited i] }, r.err⟩

/-- The callable returned by `compose(middleware)`, applied to a context:
`dispatch(0)` with the cursor at `-1`, an empty trace, and enough fuel for
every position of the chain plus the terminal one. -/
def composeRun {σ ε : Type} (mws : List (MwProg σ ε)) (fin : Option (σ → σ))
    (c : σ) : Res σ ε :=
  dispatchF mws fin (mws.length + 1) 0 ⟨c, -1, []⟩

/-- A middleware that proceeds exactly once and then completes normally. -/
def proceedsOnce {σ ε : Type} : MwProg σ ε → Bool
  | .callNext _ (.ret _) => true
  | _ => false

/-- The enter-indices of a trace, in order. -/
def entersOf (t : List Event) : List Nat :=
  t.filterMap fun e => match e with | .enter i => some i | _ => none

/-- The trace of a complete onion-style traversal of `n` middleware:
enter `0..n-1` in order, the final continuation (when supplied), then the
middleware settle innermost-first. -/
def onionTrace (n : Nat) (hasFin : Bool) : List Event :=
  ((List.range n).map .enter) ++ (if hasFin then [.final] else []) ++
    (((List.range n).reverse).map .exited)

theorem entersOf_append (t₁ t₂ : List Event) :
    entersOf (t₁ ++ t₂) = entersOf t₁ ++ entersOf t₂ :=
  List.filterMap_append ..

theorem entersOf_enter (i : Nat) : entersOf [.enter i] = [i] := rfl

theorem entersOf_exited (i : Nat) : entersOf [.exited i] = [] := rfl

theorem entersOf_final : entersOf [.final] = [] := rfl

/-- The behaviour a `proceed` continuation (and a whole `dispatch i`)
guarantees: the cursor never moves backwards, the call only appends to the
trace, the appended enter-indices are strictly increasing, and each of them
lies strictly above the cursor at call time and at most at the cursor at
return time.  This holds whether the resulting promise resolves or
rejects. -/
def StepSpec {σ ε : Type} (g : DSt σ → Res σ ε) : Prop :=
  ∀ s, s.idx ≤ (g s).st.idx ∧
    ∃ t, (g s).st.trace = s.trace ++ t ∧
      List.Chain' (· < ·) (entersOf t) ∧
      ∀ j ∈ entersOf t, s.idx < (j : Int) ∧ (j : Int) ≤ (g s).st.idx

/-- Glue two sequential step-satisfying segments together. -/
theorem stepSpec_seq {σ ε : Type} {s₀ : DSt σ} {r₁ r₂ : Res σ ε}
    {t₁ t₂ : List Event}
    (h₁idx : s₀.idx ≤ r₁.st.idx) (h₁tr : r₁.st.trace = s₀.trace ++ t₁)
    (h₁ch : List.Chain' (· < ·) (entersOf t₁))
    (h₁bd : ∀ j ∈ entersOf t₁, s₀.idx < (j : Int) ∧ (j : Int) ≤ r₁.st.idx)
    (h₂idx : r₁.st.idx ≤ r₂.st.idx) (h₂tr : r₂.st.trace = r₁.st.trace ++ t₂)
    (h₂ch : List.Chain' (· < ·) (entersOf t₂))
    (h₂bd : ∀ j ∈ entersOf t₂, r₁.st.idx < (j : Int) ∧ (j : Int) ≤ r₂.st.idx) :
    s₀.idx ≤ r₂.st.idx ∧
      ∃ t, r₂.st.trace = s₀.trace ++ t ∧
        List.Chain' (· < ·) (entersOf t) ∧
        ∀ j ∈ entersOf t, s₀.idx < (j : Int) ∧ (j : Int) ≤ r₂.st.idx := by
  refine ⟨le_trans h₁idx h₂idx, t₁ ++ t₂, by simp [h₂tr, h₁tr], ?_, ?_⟩
  · rw [entersOf_append, List.chain'_append]
    refine ⟨h₁ch, h₂ch, ?_⟩
    intro x hx y hy
    have hx' : x ∈ entersOf t₁ := List.mem_of_mem_getLast? hx
    have hy' : y ∈ entersOf t₂ := List.mem_of_mem_head? hy
    have h1 : (x : Int) ≤ r₁.st.idx := (h₁bd x hx').2
    have h2 : r₁.st.idx < (y : Int) := (h₂bd y hy').1
    exact_mod_cast lt_of_le_of_lt h1 h2
  · intro j hj
    rw [entersOf_append, List.mem_append] at hj
    rcases hj with hj | hj
    · exact ⟨(h₁bd j hj).1, le_trans (h₁bd j hj).2 h₂idx⟩
    · exact ⟨lt_of_le_of_lt h₁idx (h₂bd j hj).1, (h₂bd j hj).2⟩

theorem runAfter_spec {σ ε : Type} (a : MwAfter σ ε)
    (cont : DSt σ → Res σ ε) (hc : StepSpec cont) :
    StepSpec (fun s => runAfter a cont s) := by
  induction a with
  | ret f =>
    intro s
    exact ⟨le_refl _, [], by simp [runAfter, mutCtx, entersOf], by
      simp [entersOf], by simp [entersOf]⟩
  | thr f e =>
    intro s
    exact ⟨le_refl _, [], by simp [runAfter, mutCtx, entersOf], by
      simp [entersOf], by simp [entersOf]⟩
  | callNext f rest ih =>
    intro s
    obtain ⟨h₁idx, t₁, h₁tr, h₁ch, h₁bd⟩ := hc (mutCtx f s)
    simp only [runAfter]
    cases herr : (cont (mutCtx f s)).err with
    | some e =>
      simp only [herr]
      exact ⟨h₁idx, t₁, h₁tr, h₁ch, h₁bd⟩
    | none =>
      simp only [herr]
      obtain ⟨h₂idx, t₂, h₂tr, h₂ch, h₂bd⟩ := ih (cont (mutCtx f s)).st
      exact stepSpec_seq h₁idx h₁tr h₁ch h₁bd h₂idx h₂tr h₂ch h₂bd

theorem runProg_spec {σ ε : Type} (p : MwProg σ ε)
    (cont : DSt σ → Res σ ε) (hc : StepSpec cont) :
    StepSpec (fun s => invokeRes (runProg p cont s)) := by
  cases p with
  | ret f =>
    intro s
    exact ⟨le_refl _, [], by simp [runProg, invokeRes, mutCtx], by
      simp [entersOf], by simp [entersOf]⟩
  | thrSync f e =>
    intro s
    exact ⟨le_refl _, [], by simp [runProg, invokeRes, mutCtx], by
      simp [entersOf], by simp [entersOf]⟩
  | rejectA f e =>
    intro s
    exact ⟨le_refl _, [], by simp [runProg, invokeRes, mutCtx], by
      simp [entersOf], by simp [entersOf]⟩
  | callNext f rest =>
    intro s
    obtain ⟨h₁idx, t₁, h₁tr, h₁ch, h₁bd⟩ := hc (mutCtx f s)
    simp only [runProg]
    cases herr : (cont (mutCtx f s)).err with
    | some e =>
      simp only [herr, invokeRes]
      exact ⟨h₁idx, t₁, h₁tr, h₁ch, h₁bd⟩
    | none =>
      simp only [herr, invokeRes]
      obtain ⟨h₂idx, t₂, h₂tr, h₂ch, h₂bd⟩ :=
        runAfter_spec rest cont hc (cont (mutCtx f s)).st
      exact stepSpec_seq h₁idx h₁tr h₁ch h₁bd h₂idx h₂tr h₂ch h₂bd

theorem dispatchF_spec {σ ε : Type} (mws : List (MwProg σ ε))
    (fin : Option (σ → σ)) :
    ∀ fuel i, StepSpec (fun s => dispatchF mws fin fuel i s) := by
  intro fuel
  induction fuel with
  | zero =>
    intro i s
    by_cases hg : (i : Int) ≤ s.idx <;>
      exact ⟨by simp [dispatchF, hg], [], by simp [dispatchF, hg], by
        simp [entersOf], by simp [entersOf]⟩
  | succ fuel ih =>
    intro i s
    by_cases hg : (i : Int) ≤ s.idx
    · exact ⟨by simp [dispatchF, hg], [], by simp [dispatchF, hg], by
        simp [entersOf], by simp [entersOf]⟩
    · have hlt : s.idx < (i : Int) := lt_of_not_le hg
      cases hm : mws[i]? with
      | none =>
        cases hf : fin with
        | none =>
          exact ⟨by simp [dispatchF, hg, hm, hf]; exact le_of_lt hlt, [], by
            simp [dispatchF, hg, hm, hf], by simp [entersOf], by
            simp [entersOf]⟩
        | some f =>
          refine ⟨by simp [dispatchF, hg, hm, hf]; exact le_of_lt hlt,
            [.final], by simp [dispatchF, hg, hm, hf], by
            simp [entersOf_final], by simp [entersOf_final]⟩
      | some p =>
        have hspec := runProg_spec p _ (ih (i + 1))
        set s2 : DSt σ :=
          ⟨s.ctx, (i : Int), s.trace ++ [.enter i]⟩ with hs2
        obtain ⟨h₂idx, t₂, h₂tr, h₂ch, h₂bd⟩ := hspec s2
        beta_reduce at h₂idx h₂tr h₂bd
        set r := invokeRes
          (runProg p (fun s' => dispatchF mws fin fuel (i + 1) s') s2) with hr
        have hres : dispatchF mws fin (fuel + 1) i s =
            ⟨{ r.st with trace := r.st.trace ++ [.exited i] }, r.err⟩ := by
          simp only [dispatchF]
          rw [if_neg hg]
          simp only [hm]
        beta_reduce
        rw [hres]
        have hidx2 : (i : Int) ≤ r.st.idx := h₂idx
        refine ⟨le_of_lt (lt_of_lt_of_le hlt hidx2),
          [.enter i] ++ t₂ ++ [.exited i], ?_, ?_, ?_⟩
        · simp only [DSt.mk.injEq]
          rw [h₂tr]
          simp [hs2]
        · rw [entersOf_append, entersOf_append, entersOf_enter,
            entersOf_exited, List.append_nil, List.singleton_append,
            List.chain'_cons']
          refine ⟨?_, h₂ch⟩
          intro y hy
          have hy' : y ∈ entersOf t₂ := List.mem_of_mem_head? hy
          have := (h₂bd y hy').1
          simp only [hs2] at this
          exact_mod_cast this
        · intro j hj
          rw [entersOf_append, entersOf_append, entersOf_enter,
            entersOf_exited, List.append_nil] at hj
          rcases List.mem_append.mp hj with hj | hj
          · rcases List.mem_singleton.mp hj with rfl
            exact ⟨hlt, hidx2⟩
          · have := h₂bd j hj
            simp only [hs2] at this
            exact ⟨lt_trans hlt this.1, this.2⟩

/-! Small computation lemmas for `dispatchF`. -/

theorem dispatchF_guard {σ ε : Type} {mws : List (MwProg σ ε)} {fin}
    {fuel i : Nat} {s : DSt σ} (hg : (i : Int) ≤ s.idx) :
    dispatchF mws fin fuel i s = ⟨s, some (.jsError multipleNextMsg)⟩ := by
  cases fuel <;> simp [dispatchF, hg]

theorem dispatchF_succ_some {σ ε : Type} {mws : List (MwProg σ ε)} {fin}
    {fuel i : Nat} {s : DSt σ} {p : MwProg σ ε}
    (hg : ¬(i : Int) ≤ s.idx) (hm : mws[i]? = some p) :
    dispatchF mws fin (fuel + 1) i s =
      (let r := invokeRes (runProg p (fun s' => dispatchF mws fin fuel (i + 1) s')
        ⟨s.ctx, (i : Int), s.trace ++ [.enter i]⟩)
      ⟨{ r.st with trace := r.st.trace ++ [.exited i] }, r.err⟩) := by
  simp only [dispatchF]
  rw [if_neg hg]
  simp only [hm]

theorem dispatchF_succ_none {σ ε : Type} {mws : List (MwProg σ ε)} {fin}
    {fuel i : Nat} {s : DSt σ}
    (hg : ¬(i : Int) ≤ s.idx) (hm : mws[i]? = none) :
    dispatchF mws fin (fuel + 1) i s =
      (match fin with
      | some f => ⟨⟨f s.ctx, (i : Int), s.trace ++ [.final]⟩, none⟩
      | none => ⟨⟨s.ctx, (i : Int), s.trace⟩, none⟩) := by
  simp only [dispatchF]
  rw [if_neg hg]
  simp only [hm]

/-- The tail of the onion trace from position `i` on, over `n` middleware. -/
def midTrace (i n : Nat) (hasFin : Bool) : List Event :=
  ((List.range' i (n - i)).map .enter) ++ (if hasFin then [.final] else []) ++
    (((List.range' i (n - i)).reverse).map .exited)

theorem midTrace_cons {i n : Nat} (h : i < n) (hasFin : Bool) :
    midTrace i n hasFin =
      .enter i :: (midTrace (i + 1) n hasFin ++ [.exited i]) := by
  have hk : n - i = (n - (i + 1)) + 1 := by omega
  simp only [midTrace, hk, List.range'_succ, List.map_cons, List.reverse_cons,
    List.map_append, List.map_cons, List.map_nil]
  simp [List.append_assoc]

theorem midTrace_end (n : Nat) (hasFin : Bool) :
    midTrace n n hasFin = if hasFin then [.final] else [] := by
  simp [midTrace]

theorem onionTrace_eq_midTrace (n : Nat) (hasFin : Bool) :
    onionTrace n hasFin = midTrace 0 n hasFin := by
  simp [onionTrace, midTrace, List.range_eq_range']

/-- Full-traversal characterization: from position `i`, when every remaining
middleware proceeds exactly once, the run resolves, appends exactly the
onion-shaped tail of the trace, and leaves the cursor at the terminal
position. -/
theorem dispatchF_run_full {σ ε : Type} (mws : List (MwProg σ ε))
    (fin : Option (σ → σ)) :
    ∀ (fuel i : Nat) (s : DSt σ),
      (∀ j p, mws[j]? = some p → i ≤ j → proceedsOnce p = true) →
      s.idx = (i : Int) - 1 → i ≤ mws.length → mws.length + 1 ≤ fuel + i →
      (dispatchF mws fin fuel i s).err = none ∧
        (dispatchF mws fin fuel i s).st.trace =
          s.trace ++ midTrace i mws.length fin.isSome ∧
        (dispatchF mws fin fuel i s).st.idx = (mws.length : Int) := by
  intro fuel
  induction fuel with
  | zero => intro i s _ _ hle hfuel; omega
  | succ fuel ih =>
    intro i s hall hsidx hle hfuel
    have hg : ¬(i : Int) ≤ s.idx := by rw [hsidx]; omega
    rcases Nat.lt_or_ge i mws.length with hilt | hige
    · obtain ⟨p, hm⟩ : ∃ p, mws[i]? = some p :=
        ⟨mws[i], List.getElem?_eq_getElem hilt⟩
      have hp : proceedsOnce p = true := hall i _ hm (le_refl i)
      cases p with
      | ret f => simp [proceedsOnce] at hp
      | thrSync f e => simp [proceedsOnce] at hp
      | rejectA f e => simp [proceedsOnce] at hp
      | callNext f rest =>
        cases rest with
        | thr g e => simp [proceedsOnce] at hp
        | callNext g rest' => simp [proceedsOnce] at hp
        | ret g =>
          have hinner := ih (i + 1)
            (mutCtx f ⟨s.ctx, (i : Int), s.trace ++ [.enter i]⟩)
            (fun j p hj hij => hall j p hj (by omega))
            (by simp [mutCtx]; try omega) (by omega) (by omega)
          set rr := dispatchF mws fin fuel (i + 1)
            (mutCtx f ⟨s.ctx, (i : Int), s.trace ++ [.enter i]⟩) with hrr
          obtain ⟨hrrerr, hrrtr, hrridx⟩ := hinner
          rw [dispatchF_succ_some hg hm]
          simp only [runProg, ← hrr, hrrerr, invokeRes, runAfter]
          refine ⟨trivial, ?_, ?_⟩
          · simp only [mutCtx, hrrtr]
            rw [midTrace_cons hilt]
            simp [mutCtx]
          · simp only [mutCtx, hrridx]
    · have hieq : i = mws.length := by omega
      have hm : mws[i]? = none := by
        rw [List.getElem?_eq_none_iff]
        omega
      rw [dispatchF_succ_none hg hm]
      cases fin with
      | none => subst hieq; simp [midTrace_end]
      | some f => subst hieq; simp [midTrace_end]

/-- The trace produced when the traversal stops at position `k` (the
middleware there returns without proceeding): positions `i..k` are entered
and settle in onion order; nothing downstream of `k` and no terminal
continuation runs. -/
def stopTrace (i k : Nat) : List Event :=
  ((List.range' i (k + 1 - i)).map .enter) ++
    (((List.range' i (k + 1 - i)).reverse).map .exited)

theorem stopTrace_cons {i k : Nat} (h : i < k) :
    stopTrace i k = .enter i :: (stopTrace (i + 1) k ++ [.exited i]) := by
  have hk : k + 1 - i = (k + 1 - (i + 1)) + 1 := by omega
  simp only [stopTrace, hk, List.range'_succ, List.map_cons, List.reverse_cons,
    List.map_append, List.map_cons, List.map_nil]
  simp [List.append_assoc]

theorem stopTrace_end (k : Nat) :
    stopTrace k k = [.enter k, .exited k] := by
  have h1 : k + 1 - k = 1 := by omega
  simp [stopTrace, h1, List.range']

/-- Short-circuit characterization: middleware `i..k-1` proceed once,
middleware `k` returns without proceeding — the run resolves with cursor at
`k` and the trace stops there. -/
theorem dispatchF_run_stop {σ ε : Type} (mws : List (MwProg σ ε))
    (fin : Option (σ → σ)) (k : Nat) (g : σ → σ)
    (hk : mws[k]? = some (.ret g)) :
    ∀ (fuel i : Nat) (s : DSt σ),
      (∀ j p, mws[j]? = some p → i ≤ j → j < k → proceedsOnce p = true) →
      s.idx = (i : Int) - 1 → i ≤ k → mws.length + 1 ≤ fuel + i →
      (dispatchF mws fin fuel i s).err = none ∧
        (dispatchF mws fin fuel i s).st.trace = s.trace ++ stopTrace i k ∧
        (dispatchF mws fin fuel i s).st.idx = (k : Int) := by
  have hklen : k < mws.length := by
    by_contra hc
    rw [List.getElem?_eq_none_iff.mpr (by omega)] at hk
    exact Option.noConfusion hk
  intro fuel
  induction fuel with
  | zero => intro i s _ _ hle hfuel; omega
  | succ fuel ih =>
    intro i s hall hsidx hle hfuel
    have hg : ¬(i : Int) ≤ s.idx := by rw [hsidx]; omega
    rcases Nat.lt_or_ge i k with hilt | hige
    · obtain ⟨p, hm⟩ : ∃ p, mws[i]? = some p :=
        ⟨mws.get ⟨i, by omega⟩, by rw [List.getElem?_eq_getElem (by omega)]; rfl⟩
      have hp : proceedsOnce p = true := hall i _ hm (le_refl i) hilt
      cases p with
      | ret f => simp [proceedsOnce] at hp
      | thrSync f e => simp [proceedsOnce] at hp
      | rejectA f e => simp [proceedsOnce] at hp
      | callNext f rest =>
        cases rest with
        | thr g' e => simp [proceedsOnce] at hp
        | callNext g' rest' => simp [proceedsOnce] at hp
        | ret g' =>
          have hinner := ih (i + 1)
            (mutCtx f ⟨s.ctx, (i : Int), s.trace ++ [.enter i]⟩)
            (fun j p hj hij hjk => hall j p hj (by omega) hjk)
            (by simp [mutCtx]; try omega) (by omega) (by omega)
          set rr := dispatchF mws fin fuel (i + 1)
            (mutCtx f ⟨s.ctx, (i : Int), s.trace ++ [.enter i]⟩) with hrr
          obtain ⟨hrrerr, hrrtr, hrridx⟩ := hinner
          rw [dispatchF_succ_some hg hm]
          simp only [runProg, ← hrr, hrrerr, invokeRes, runAfter]
          refine ⟨trivial, ?_, ?_⟩
          · simp only [mutCtx, hrrtr]
            rw [stopTrace_cons hilt]
            simp [mutCtx]
          · simp only [mutCtx, hrridx]
    · have hieq : i = k := by omega
      subst hieq
      rw [dispatchF_succ_some hg hk]
      simp only [runProg, invokeRes, mutCtx]
      rw [stopTrace_end]
      simp

/-- Middleware behaviours that fail without calling `proceed`: a synchronous
throw during the invocation, or a returned promise that rejects.  Both carry
the raised error. -/
def immediateErr {σ ε : Type} : MwProg σ ε → Option ε
  | .thrSync _ e => some e
  | .rejectA _ e => some e
  | _ => none

/-- Error-propagation characterization: middleware `i..k-1` proceed once and
middleware `k` raises `e` (synchronously or as an asynchronous rejection) —
the run rejects with exactly `e`, unmodified. -/
theorem dispatchF_run_err {σ ε : Type} (mws : List (MwProg σ ε))
    (fin : Option (σ → σ)) (k : Nat) (pk : MwProg σ ε) (e : ε)
    (hk : mws[k]? = some pk) (hke : immediateErr pk = some e) :
    ∀ (fuel i : Nat) (s : DSt σ),
      (∀ j p, mws[j]? = some p → i ≤ j → j < k → proceedsOnce p = true) →
      s.idx = (i : Int) - 1 → i ≤ k → mws.length + 1 ≤ fuel + i →
      (dispatchF mws fin fuel i s).err = some (.user e) := by
  intro fuel
  induction fuel with
  | zero =>
    intro i s _ _ hle hfuel
    have hklen : k < mws.length := by
      by_contra hc
      rw [List.getElem?_eq_none_iff.mpr (by omega)] at hk
      exact Option.noConfusion hk
    omega
  | succ fuel ih =>
    intro i s hall hsidx hle hfuel
    have hg : ¬(i : Int) ≤ s.idx := by rw [hsidx]; omega
    rcases Nat.lt_or_ge i k with hilt | hige
    · have hklen : k < mws.length := by
        by_contra hc
        rw [List.getElem?_eq_none_iff.mpr (by omega)] at hk
        exact Option.noConfusion hk
      obtain ⟨p, hm⟩ : ∃ p, mws[i]? = some p :=
        ⟨mws.get ⟨i, by omega⟩, by rw [List.getElem?_eq_getElem (by omega)]; rfl⟩
      have hp : proceedsOnce p = true := hall i _ hm (le_refl i) hilt
      cases p with
      | ret f => simp [proceedsOnce] at hp
      | thrSync f e' => simp [proceedsOnce] at hp
      | rejectA f e' => simp [proceedsOnce] at hp
      | callNext f rest =>
        cases rest with
        | thr g e' => simp [proceedsOnce] at hp
        | callNext g rest' => simp [proceedsOnce] at hp
        | ret g =>
          have hinner := ih (i + 1)
            (mutCtx f ⟨s.ctx, (i : Int), s.trace ++ [.enter i]⟩)
            (fun j p hj hij hjk => hall j p hj (by omega) hjk)
            (by simp [mutCtx]; try omega) (by omega) (by omega)
          rw [dispatchF_succ_some hg hm]
          simp only [runProg, hinner, invokeRes]
    · have hieq : i = k := by omega
      subst hieq
      rw [dispatchF_succ_some hg hk]
      cases pk with
      | ret f => simp [immediateErr] at hke
      | callNext f rest => simp [immediateErr] at hke
      | thrSync f e' =>
        simp only [immediateErr, Option.some.injEq] at hke
        subst hke
        simp [runProg, invokeRes]
      | rejectA f e' =>
        simp only [immediateErr, Option.some.injEq] at hke
        subst hke
        simp [runProg, invokeRes]

/-- Double-proceed characterization: middleware below `k` proceed once,
middleware `k` calls its continuation a second time after the first call
resolved (every middleware past `k` proceeds once, so it does resolve) —
the run rejects with the dispatcher's distinguished error. -/
theorem dispatchF_run_double {σ ε : Type} (mws : List (MwProg σ ε))
    (fin : Option (σ → σ)) (k : Nat) (f f₂ : σ → σ) (rest : MwAfter σ ε)
    (hk : mws[k]? = some (.callNext f (.callNext f₂ rest)))
    (hother : ∀ j p, mws[j]? = some p → j ≠ k → proceedsOnce p = true) :
    ∀ (fuel i : Nat) (s : DSt σ),
      s.idx = (i : Int) - 1 → i ≤ k → mws.length + 1 ≤ fuel + i →
      (dispatchF mws fin fuel i s).err =
        some (.jsError multipleNextMsg) := by
  have hklen : k < mws.length := by
    by_contra hc
    rw [List.getElem?_eq_none_iff.mpr (by omega)] at hk
    exact Option.noConfusion hk
  intro fuel
  induction fuel with
  | zero => intro i s _ hle hfuel; omega
  | succ fuel ih =>
    intro i s hsidx hle hfuel
    have hg : ¬(i : Int) ≤ s.idx := by rw [hsidx]; omega
    rcases Nat.lt_or_ge i k with hilt | hige
    · obtain ⟨p, hm⟩ : ∃ p, mws[i]? = some p :=
        ⟨mws.get ⟨i, by omega⟩, by rw [List.getElem?_eq_getElem (by omega)]; rfl⟩
      have hp : proceedsOnce p = true := hother i p hm (by omega)
      cases p with
      | ret f' => simp [proceedsOnce] at hp
      | thrSync f' e' => simp [proceedsOnce] at hp
      | rejectA f' e' => simp [proceedsOnce] at hp
      | callNext f' rest' =>
        cases rest' with
        | thr g e' => simp [proceedsOnce] at hp
        | callNext g rest'' => simp [proceedsOnce] at hp
        | ret g =>
          have hinner := ih (i + 1)
            (mutCtx f' ⟨s.ctx, (i : Int), s.trace ++ [.enter i]⟩)
            (by simp [mutCtx]; try omega) (by omega) (by omega)
          rw [dispatchF_succ_some hg hm]
          simp only [runProg, hinner, invokeRes]
    · have hieq : i = k := by omega
      subst hieq
      rw [dispatchF_succ_some hg hk]
      have hfirst := dispatchF_run_full mws fin fuel (i + 1)
        (mutCtx f ⟨s.ctx, (i : Int), s.trace ++ [.enter i]⟩)
        (fun j p hj hij => hother j p hj (by omega))
        (by simp [mutCtx]; try omega) (by omega) (by omega)
      set rr := dispatchF mws fin fuel (i + 1)
        (mutCtx f ⟨s.ctx, (i : Int), s.trace ++ [.enter i]⟩) with hrr
      obtain ⟨hrrerr, _, hrridx⟩ := hfirst
      have hsecond : dispatchF mws fin fuel (i + 1) (mutCtx f₂ rr.st) =
          ⟨mutCtx f₂ rr.st, some (.jsError multipleNextMsg)⟩ :=
        dispatchF_guard (by simp [mutCtx, hrridx]; omega)
      simp only [runProg, ← hrr, hrrerr, runAfter, hsecond, invokeRes]

theorem memOfIdx {α : Type} {l : List α} {i : Nat} {a : α}
    (h : l[i]? = some a) : a ∈ l := by
  have h' : l.get? i = some a := by rw [List.get?_eq_getElem?]; exact h
  exact List.get?_mem h'

theorem final_not_mem_stopTrace (i k : Nat) :
    Event.final ∉ stopTrace i k := by
  intro hmem
  rcases List.mem_append.mp hmem with h | h <;>
    · rcases List.mem_map.mp h with ⟨j, _, hj⟩
      exact Event.noConfusion hj

theorem enter_mem_stopTrace {i k j : Nat}
    (h : Event.enter j ∈ stopTrace i k) : j ≤ k := by
  rcases List.mem_append.mp h with h | h
  · rcases List.mem_map.mp h with ⟨m, hm, hj⟩
    cases hj
    have := List.mem_range'_1.mp hm
    omega
  · rcases List.mem_map.mp h with ⟨m, hm, hj⟩
    exact Event.noConfusion hj

theorem count_final_onionTrace (n : Nat) :
    (onionTrace n true).count Event.final = 1 := by
  have h1 : ((List.range n).map Event.enter).count Event.final = 0 := by
    rw [List.count_eq_zero]
    intro hmem
    rcases List.mem_map.mp hmem with ⟨j, _, hj⟩
    exact Event.noConfusion hj
  have h2 : ∀ l : List Nat, (l.map Event.exited).count Event.final = 0 := by
    intro l
    rw [List.count_eq_zero]
    intro hmem
    rcases List.mem_map.mp hmem with ⟨j, _, hj⟩
    exact Event.noConfusion hj
  simp [onionTrace, List.count_append, h1, h2]

/-- **C4** For every list of middleware and every context, the callable
produced by `compose` runs the middleware strictly in list order, enters
each dispatch index at most once (the enter-indices of the trace are
strictly increasing in every run, resolved or rejected), performs each
middleware's downstream work only after all middleware further down the
chain have completed or the chain has bottomed out (the trace of a full
traversal is exactly the onion `enter 0, …, enter (n-1), final, exited
(n-1), …, exited 0`), invokes the externally supplied final continuation
exactly once per successful full traversal, and when some middleware
returns without calling `proceed`, neither the remaining middleware nor
the final continuation run and the composed call still resolves. -/
theorem compose_order_once_onion_shortcircuit (σ ε : Type) :
    (∀ (mws : List (MwProg σ ε)) (fin : Option (σ → σ)) (c : σ),
      (∀ p ∈ mws, proceedsOnce p = true) →
      (composeRun mws fin c).err = none ∧
        (composeRun mws fin c).st.trace = onionTrace mws.length fin.isSome ∧
        (fin.isSome = true →
          ((composeRun mws fin c).st.trace.count .final) = 1)) ∧
    (∀ (mws : List (MwProg σ ε)) (fin : Option (σ → σ)) (c : σ),
      List.Chain' (· < ·) (entersOf (composeRun mws fin c).st.trace)) ∧
    (∀ (mws : List (MwProg σ ε)) (fin : Option (σ → σ)) (c : σ)
      (k : Nat) (g : σ → σ),
      mws[k]? = some (.ret g) →
      (∀ j p, mws[j]? = some p → j < k → proceedsOnce p = true) →
      (composeRun mws fin c).err = none ∧
        Event.final ∉ (composeRun mws fin c).st.trace ∧
        (∀ j, Event.enter j ∈ (composeRun mws fin c).st.trace → j ≤ k)) := by
  refine ⟨?_, ?_, ?_⟩
  · intro mws fin c hall
    have h := dispatchF_run_full mws fin (mws.length + 1) 0 ⟨c, -1, []⟩
      (fun j p hj _ => hall p (memOfIdx hj)) (by simp) (by omega) (by omega)
    obtain ⟨herr, htr, _⟩ := h
    refine ⟨herr, ?_, ?_⟩
    · rw [composeRun, htr, onionTrace_eq_midTrace]
      simp
    · intro hfin
      rw [composeRun, htr]
      simp only [List.nil_append]
      rw [← onionTrace_eq_midTrace]
      cases fin with
      | none => simp at hfin
      | some f => exact count_final_onionTrace mws.length
  · intro mws fin c
    obtain ⟨_, t, htr, hch, _⟩ :=
      dispatchF_spec mws fin (mws.length + 1) 0 ⟨c, -1, []⟩
    rw [composeRun, htr]
    simpa using hch
  · intro mws fin c k g hk hbelow
    have h := dispatchF_run_stop mws fin k g hk (mws.length + 1) 0 ⟨c, -1, []⟩
      (fun j p hj _ hjk => hbelow j p hj hjk) (by simp) (by omega) (by omega)
    obtain ⟨herr, htr, _⟩ := h
    simp only [composeRun]
    refine ⟨herr, ?_, ?_⟩
    · rw [htr]
      simpa using final_not_mem_stopTrace 0 k
    · intro j hj
      rw [htr] at hj
      simp only [List.nil_append] at hj
      exact enter_mem_stopTrace hj

/-- Concrete middleware used to witness the dispatcher claims: sets a key,
proceeds, and after `proceed` resolves copies the value stored under `y`
into `obs`. -/
def cmwA : MwProg (Rec Int) String :=
  .callNext (fun st => st ++ [("x", 1)])
    (.ret fun st => st ++ [("obs", (rget st "y").getD 0)])

/-- Concrete middleware: sets `y` and proceeds. -/
def cmwB : MwProg (Rec Int) String :=
  .callNext (fun st => st ++ [("y", 2)]) (.ret id)

/-- Concrete middleware: returns without proceeding. -/
def cmwStop : MwProg (Rec Int) String := .ret id

/-- Witness for the dispatcher ordering claim: a full traversal of
`[cmwA, cmwB]` produces the onion trace with exactly one terminal
invocation, the downstream-after-upstream ordering is observable in the
state (`cmwA`'s post-`proceed` code sees the value `cmwB` wrote), and a
chain short-circuited at position 1 never runs the terminal
continuation. -/
theorem compose_order_once_onion_shortcircuit_witness :
    (composeRun [cmwA, cmwB] (some id) ([] : Rec Int)).err = none ∧
      (composeRun [cmwA, cmwB] (some id) ([] : Rec Int)).st.trace =
        onionTrace 2 true ∧
      (composeRun [cmwA, cmwB] (some id) ([] : Rec Int)).st.trace.count
        .final = 1 ∧
      rget (composeRun [cmwA, cmwB] (some id) ([] : Rec Int)).st.ctx "obs" =
        some 2 ∧
      List.Chain' (· < ·)
        (entersOf (composeRun [cmwA, cmwB] (some id) ([] : Rec Int)).st.trace) ∧
      (composeRun [cmwA, cmwStop, cmwB] (some id) ([] : Rec Int)).err = none ∧
      Event.final ∉
        (composeRun [cmwA, cmwStop, cmwB] (some id) ([] : Rec Int)).st.trace := by
  obtain ⟨hfull, honce, hstop⟩ :=
    compose_order_once_onion_shortcircuit (Rec Int) String
  obtain ⟨h1, h2, h3⟩ := hfull [cmwA, cmwB] (some id) []
    (by
      intro p hp
      simp only [List.mem_cons, List.not_mem_nil, or_false] at hp
      rcases hp with rfl | rfl <;> rfl)
  obtain ⟨h4, h5, h6⟩ := hstop [cmwA, cmwStop, cmwB] (some id) [] 1 id rfl
    (by
      intro j p hj hlt
      interval_cases j
      simp only [List.getElem?_cons_zero, Option.some.injEq] at hj
      subst hj
      rfl)
  exact ⟨h1, h2, h3 rfl, by decide, honce [cmwA, cmwB] (some id) [], h4, h5⟩

/-- **C5** If a middleware invokes its `proceed` continuation a second time
(the first invocation having resolved — every other middleware proceeds
exactly once), the composed call rejects with the distinguished error
carrying the fixed message `"next() called multiple times"`; the detection
is the dispatch cursor check: any dispatch whose index is not strictly
greater than the cursor fails immediately with that error. -/
theorem compose_double_proceed_rejects {σ ε : Type}
    (mws : List (MwProg σ ε)) (fin : Option (σ → σ)) (c : σ) (k : Nat)
    (f f₂ : σ → σ) (rest : MwAfter σ ε)
    (hk : mws[k]? = some (.callNext f (.callNext f₂ rest)))
    (hother : ∀ j p, mws[j]? = some p → j ≠ k → proceedsOnce p = true) :
    (composeRun mws fin c).err = some (.jsError multipleNextMsg) ∧
      (∀ (fuel i : Nat) (s : DSt σ), (i : Int) ≤ s.idx →
        dispatchF mws fin fuel i s = ⟨s, some (.jsError multipleNextMsg)⟩) := by
  constructor
  · exact dispatchF_run_double mws fin k f f₂ rest hk hother
      (mws.length + 1) 0 ⟨c, -1, []⟩ (by simp) (by omega) (by omega)
  · intro fuel i s hg
    exact dispatchF_guard hg

/-- Concrete middleware calling `proceed` twice. -/
def cmwDouble : MwProg (Rec Int) String :=
  .callNext id (.callNext id (.ret id))

/-- Witness for the double-proceed claim at the concrete one-element chain
`[cmwDouble]`. -/
theorem compose_double_proceed_rejects_witness :
    (composeRun [cmwDouble] none ([] : Rec Int)).err =
      some (.jsError multipleNextMsg) := by
  refine (compose_double_proceed_rejects [cmwDouble] none [] 0 id id
    (.ret id) rfl ?_).1
  intro j p hj hne
  cases j with
  | zero => exact absurd rfl hne
  | succ n => simp at hj

/-- **C6** Any error raised by a middleware — whether thrown synchronously
during its invocation or delivered as a rejection of its returned promise —
surfaces as exactly one rejection of the composed call, with the error value
passed through unmodified. -/
theorem compose_error_passthrough {σ ε : Type}
    (mws : List (MwProg σ ε)) (fin : Option (σ → σ)) (c : σ) (k : Nat)
    (pk : MwProg σ ε) (e : ε)
    (hk : mws[k]? = some pk) (hke : immediateErr pk = some e)
    (hbelow : ∀ j p, mws[j]? = some p → j < k → proceedsOnce p = true) :
    (composeRun mws fin c).err = some (.user e) :=
  dispatchF_run_err mws fin k pk e hk hke (mws.length + 1) 0 ⟨c, -1, []⟩
    (fun j p hj _ hjk => hbelow j p hj hjk) (by simp) (by omega) (by omega)

/-- Concrete middleware that throws synchronously. -/
def cmwThrow : MwProg (Rec Int) String := .thrSync id "boom"

/-- Concrete middleware that returns a rejected promise. -/
def cmwReject : MwProg (Rec Int) String := .rejectA id "bust"

/-- Witness for the error pass-through claim: a synchronous throw behind one
proceeding middleware, and an asynchronous rejection at the head of a chain,
both surface unmodified. -/
theorem compose_error_passthrough_witness :
    (composeRun [cmwA, cmwThrow] none ([] : Rec Int)).err =
      some (.user "boom") ∧
      (composeRun [cmwReject, cmwB] none ([] : Rec Int)).err =
        some (.user "bust") := by
  constructor
  · refine compose_error_passthrough [cmwA, cmwThrow] none [] 1 cmwThrow
      "boom" rfl rfl ?_
    intro j p hj hlt
    interval_cases j
    simp only [List.getElem?_cons_zero, Option.some.injEq] at hj
    subst hj
    rfl
  · refine compose_error_passthrough [cmwReject, cmwB] none [] 0 cmwReject
      "bust" rfl rfl ?_
    intro j p hj hlt
    omega

theorem rget_singleton {α : Type} (k k' : String) (v : α) :
    rget [(k, v)] k' = if k = k' then some v else none := by
  simp [rget]

theorem orElse_none_right {α : Type} (x : Option α) :
    (x.orElse fun _ => (none : Option α)) = x := by
  cases x <;> rfl

/-- Base layer of the merge-precedence example: `{state:{a:1,b:1}}`. -/
def exBase : MockContextOptions :=
  { state := some [("a", .num 1), ("b", .num 1)] }

/-- Override layer of the merge-precedence example: `{state:{b:2,c:2}}`. -/
def exOverride : MockContextOptions :=
  { state := some [("b", .num 2), ("c", .num 2)] }

/-- **C1** The merged configuration takes the override's value for each
scalar field when present (else the base's); the mapping fields `state`,
`headers` (unified with the `requestHeaders` alias), `cookies` and `files`
are merged key-by-key, an override entry replacing a base entry of the same
key and every other key of both layers preserved (`files` stays absent
exactly when both layers omit it); the context is built from this merge
(its state bag is the merged state), and in particular base
`{state:{a:1,b:1}}` with override `{state:{b:2,c:2}}` yields context state
`{a:1,b:2,c:2}`. -/
theorem merge_precedence :
    (∀ b o : MockContextOptions,
      (mergedForCloning b o).status = (o.status <|> b.status) ∧
      (mergedForCloning b o).body = (o.body <|> b.body) ∧
      (mergedForCloning b o).message = (o.message <|> b.message) ∧
      (mergedForCloning b o).method = (o.method <|> b.method) ∧
      (mergedForCloning b o).url = (o.url <|> b.url) ∧
      (mergedForCloning b o).host = (o.host <|> b.host) ∧
      (mergedForCloning b o).hostname = (o.hostname <|> b.hostname) ∧
      (mergedForCloning b o).protocol = (o.protocol <|> b.protocol)) ∧
    (∀ (b o : MockContextOptions) (k : String),
      rget ((mergedForCloning b o).state.getD []) k =
        ((rget (o.state.getD []) k).orElse fun _ =>
          rget (b.state.getD []) k)) ∧
    (∀ (b o : MockContextOptions) (k : String),
      rget ((mergedForCloning b o).headers.getD []) k =
        ((rget ((o.headers.getD []) ++ (o.requestHeaders.getD [])) k).orElse
          fun _ =>
            rget ((b.headers.getD []) ++ (b.requestHeaders.getD [])) k)) ∧
    (∀ (b o : MockContextOptions) (k : String),
      rget ((mergedForCloning b o).cookies.getD []) k =
        ((rget (o.cookies.getD []) k).orElse fun _ =>
          rget (b.cookies.getD []) k)) ∧
    (∀ (b o : MockContextOptions) (k : String),
      rget ((mergedForCloning b o).files.getD []) k =
        ((rget (o.files.getD []) k).orElse fun _ =>
          rget (b.files.getD []) k)) ∧
    (∀ b o : MockContextOptions,
      ((mergedForCloning b o).files = none ↔
        (b.files = none ∧ o.files = none))) ∧
    (∀ (now : Nat) (b o : MockContextOptions),
      (createMockGenerator now b o).state =
        (mergedForCloning b o).state.getD [] ∧
      (createMockGenerator now b o).cookies =
        (mergedForCloning b o).cookies.getD []) ∧
    (rget (createMockGenerator 0 exBase exOverride).state "a" =
        some (.num 1) ∧
      rget (createMockGenerator 0 exBase exOverride).state "b" =
        some (.num 2) ∧
      rget (createMockGenerator 0 exBase exOverride).state "c" =
        some (.num 2) ∧
      ∀ k, k ≠ "a" → k ≠ "b" → k ≠ "c" →
        rget (createMockGenerator 0 exBase exOverride).state k = none) := by
  refine ⟨fun b o => ⟨rfl, rfl, rfl, rfl, rfl, rfl, rfl, rfl⟩,
    fun b o k => ?_, fun b o k => ?_, fun b o k => ?_, fun b o k => ?_,
    fun b o => ?_, fun now b o => ⟨rfl, rfl⟩, ?_, ?_, ?_, ?_⟩
  · simpa [mergedForCloning, spread] using
      rget_append (b.state.getD []) (o.state.getD []) k
  · have hassoc :
        (b.headers.getD []) ++ (b.requestHeaders.getD []) ++
          (o.headers.getD []) ++ (o.requestHeaders.getD []) =
        ((b.headers.getD []) ++ (b.requestHeaders.getD [])) ++
          ((o.headers.getD []) ++ (o.requestHeaders.getD [])) := by
      simp [List.append_assoc]
    simpa [mergedForCloning, hassoc] using
      rget_append ((b.headers.getD []) ++ (b.requestHeaders.getD []))
        ((o.headers.getD []) ++ (o.requestHeaders.getD [])) k
  · simpa [mergedForCloning, spread] using
      rget_append (b.cookies.getD []) (o.cookies.getD []) k
  · rcases hb : b.files with _ | bf <;> rcases ho : o.files with _ | of
    · simp [mergedForCloning, hb, ho, spread, rget, Option.orElse]
    · cases hrg : rget of k <;>
        simp [mergedForCloning, hb, ho, spread, rget_append, rget,
          Option.orElse, hrg]
    · simp [mergedForCloning, hb, ho, spread, rget_append, rget,
        Option.orElse]
    · simp [mergedForCloning, hb, ho, spread, rget_append, rget,
        Option.orElse]
  · rcases hb : b.files with _ | bf <;> rcases ho : o.files with _ | of <;>
      simp [mergedForCloning, hb, ho]
  · decide
  · decide
  · decide
  · intro k ha hb hc
    simp [createMockGenerator, mergedForCloning, exBase, exOverride, spread,
      rget, Ne.symm ha, Ne.symm hb, Ne.symm hc]

/-- Witness for the merge claim: the example layers have no `files`, so the
merge leaves `files` absent, and the key-wise state characterization applied
at the example keys agrees with the directly evaluated context state. -/
theorem merge_precedence_witness :
    (mergedForCloning exBase exOverride).files = none ∧
      rget ((mergedForCloning exBase exOverride).state.getD []) "b" =
        some (.num 2) ∧
      rget (createMockGenerator 0 exBase exOverride).state "a" =
        some (.num 1) := by
  obtain ⟨_, hstate, _, _, _, hfiles, _, hex⟩ := merge_precedence
  refine ⟨(hfiles exBase exOverride).mpr ⟨rfl, rfl⟩, ?_, hex.1⟩
  rw [hstate exBase exOverride "b"]
  decide

/-- Configuration supplying a `body` for the response-body counterexample. -/
def c7cfg : MockContextOptions := { body := some (.num 5) }

/-- Counterexample to **C7** as stated: the configuration supplies
`body = 5`, yet immediately after construction the response's body (and the
delegated `ctx.body`) is `null`, not `5` — the configured body populates the
*request* body instead. -/
theorem response_body_cex :
    (createMockGenerator 0 {} c7cfg).response.body ≠ some (.num 5) ∧
      (mergedForCloning {} c7cfg).body = some (.num 5) ∧
      (createMockGenerator 0 {} c7cfg).request.body = some (.num 5) := by
  refine ⟨?_, rfl, rfl⟩
  intro h
  exact Option.noConfusion h

/-- **C7 (amended)** Immediately after construction the response body — and
hence the delegated `ctx.body` — is always empty (`null`), regardless of the
configuration; the configuration's `body` field populates the request body
(readable through the `requestBody` delegate). -/
theorem response_body_initial (now : Nat) (b o : MockContextOptions) :
    (createMockGenerator now b o).response.body = none ∧
      (createMockGenerator now b o).body = none ∧
      (createMockGenerator now b o).request.body =
        (mergedForCloning b o).body ∧
      (createMockGenerator now b o).requestBody =
        ((o.body).orElse fun _ => b.body) :=
  ⟨rfl, rfl, rfl, rfl⟩

/-- **C8** With no explicit file descriptors in either layer, the request's
`files` field is an empty mapping when the normalized header mapping already
declares a multipart content type, and absent otherwise. -/
theorem files_default_empty_iff_multipart (now : Nat)
    (b o : MockContextOptions)
    (hb : b.files = none) (ho : o.files = none) :
    (declaresMultipart (ctOf b o) = true →
      (createMockGenerator now b o).request.files = some []) ∧
    (declaresMultipart (ctOf b o) = false →
      (createMockGenerator now b o).request.files = none) := by
  have hmf : (mergedForCloning b o).files = none := by
    simp [mergedForCloning, hb, ho]
  constructor <;> intro hct <;>
    simp [createMockGenerator, processedFilesOf, hmf, hct]

/-- Configuration declaring a multipart content type and no files. -/
def c8multipart : MockContextOptions :=
  { headers := some [("Content-Type", .str "multipart/form-data; boundary=x")] }

/-- Witness for the files-default claim: with a multipart content-type
header the `files` field is the empty mapping; with no headers at all it is
absent. -/
theorem files_default_empty_iff_multipart_witness :
    (createMockGenerator 0 {} c8multipart).request.files = some [] ∧
      (createMockGenerator 0 {} {}).request.files = none := by
  constructor
  · exact (files_default_empty_iff_multipart 0 {} c8multipart rfl rfl).1
      (by decide)
  · exact (files_default_empty_iff_multipart 0 {} {} rfl rfl).2 (by decide)

/-- **C9** A file descriptor supplying only a source path normalizes to an
`UploadedFile` with byte size `0`, the path carried through unchanged, the
fixed placeholder original name, the generic binary media type, and a
modification timestamp that is the synthesis-time clock (`now`) — for every
descriptor, whatever fields it supplies, the timestamp is `now`, never a
value from the descriptor (which has no timestamp field to begin with); the
normalization is a pure function of the descriptor, so the caller's
descriptor object is never mutated. -/
theorem uploaded_file_defaults :
    (∀ (now : Nat) (path : String),
      createUploadedFile now ⟨path, none, none, none⟩ =
        ⟨0, path, some "mockfile.txt", some "application/octet-stream",
          some now⟩) ∧
    (∀ (now : Nat) (f : MockFile),
      (createUploadedFile now f).lastModifiedDate = some now ∧
      (createUploadedFile now f).filepath = f.filepath) :=
  ⟨fun _ _ => rfl, fun _ _ => ⟨rfl, rfl⟩⟩

/-- Modelled from the spec: the continuation stub the factory returns is a
test-framework mock function (`jest.fn()`, an external dependency whose code
is not part of this repository): it records each invocation and, with no
test-installed behaviour, returns a resolved empty result (`undefined`). -/
structure MockFn where
  calls : List (List Val)
  deriving DecidableEq, Repr

/-- Observable call count of the stub. -/
def MockFn.callCount (f : MockFn) : Nat := f.calls.length

/-- Invoke the stub: the invocation (with its arguments) is recorded, and
the default behaviour returns a resolved (`Except.ok`) empty (`none`)
result. -/
def MockFn.invoke (f : MockFn) (args : List Val) :
    MockFn × Except String (Option Val) :=
  ({ calls := f.calls ++ [args] }, .ok none)

/-- The `[ctx, next]` pair of one factory call: the context and a fresh
stub (`jest.fn()`). -/
def createMockGeneratorPair (now : Nat)
    (baseOptions overrideOptions : MockContextOptions) :
    MockKoaContext × MockFn :=
  (createMockGenerator now baseOptions overrideOptions, ⟨[]⟩)

/-- **C10** The continuation stub returned by a factory call starts with
call count zero, records each invocation (the call count increments by one
per call, and the arguments are appended to the recorded list), and, with no
test-installed behaviour, every invocation returns a resolved empty
result. -/
theorem next_stub_records_and_resolves :
    (∀ (now : Nat) (b o : MockContextOptions),
      ((createMockGeneratorPair now b o).2).callCount = 0) ∧
    (∀ (f : MockFn) (args : List Val),
      ((f.invoke args).1).callCount = f.callCount + 1 ∧
      ((f.invoke args).1).calls = f.calls ++ [args] ∧
      (f.invoke args).2 = .ok none) := by
  refine ⟨fun _ _ _ => rfl, fun f args => ⟨?_, rfl, rfl⟩⟩
  simp [MockFn.invoke, MockFn.callCount]

/-- The value a stored header reads back as: a string itself, an array
comma-joined. -/
def joinHdr : HdrVal → String
  | .str s => s
  | .list l => String.intercalate "," l

theorem rget_append_last {α : Type} (x : Rec α) (k : String) (v : α) :
    rget (x ++ [(k, v)]) k = some v := by
  rw [rget_append]
  simp [rget]

theorem createMockGenerator_get (now : Nat) (b o : MockContextOptions)
    (field : String) :
    (createMockGenerator now b o).get field =
      (rget (finalHeadersOf b o) (jsToLower field)).map joinHdr := by
  rcases h : rget (finalHeadersOf b o) (jsToLower field) with _ | v
  · simp [MockKoaContext.get, MockKoaRequest.get, createMockGenerator, h]
  · cases v <;>
      simp [MockKoaContext.get, MockKoaRequest.get, createMockGenerator, h,
        joinHdr]

/-- Override configuration of the header-readback counterexample: an
explicitly supplied (empty-string) content type together with a file
descriptor. -/
def c3cex : MockContextOptions :=
  { headers := some [("Content-Type", .str "")],
    files := some [("f", .single ⟨"a.txt", none, none, none⟩)] }

/-- Counterexample to **C3** as stated: the header `Content-Type` is
supplied with value `""`, yet reading it back (under any casing) returns
`"multipart/form-data"`, not the supplied value — because files are
configured and the falsy content-type value is overwritten with the
multipart default at construction time. -/
theorem header_readback_cex :
    (createMockGenerator 0 {} c3cex).get "Content-Type" =
        some "multipart/form-data" ∧
      (createMockGenerator 0 {} c3cex).get "Content-Type" ≠ some "" := by
  decide

/-- **C3 (amended)** Reading a header under any two casings of the same
name always returns the same value (storage keys are lower-cased at
normalization time); a header supplied in the configuration under any
casing reads back, under any other casing, as the supplied value — a string
as itself, a list of strings as their single comma-joined string in order —
except in the one case the counterexample exhibits: file descriptors are
present and the supplied content-type value is falsy (the empty string), in
which case it reads back as the multipart default. -/
theorem header_case_insensitive_readback :
    (∀ (now : Nat) (b o : MockContextOptions) (k k' : String),
      jsToLower k = jsToLower k' →
      (createMockGenerator now b o).get k =
        (createMockGenerator now b o).get k') ∧
    (∀ (now : Nat) (b o : MockContextOptions) (c : String) (v : HdrVal),
      o.headers = some [(c, v)] → o.requestHeaders = none →
      ((mergedForCloning b o).files = none ∨
        jsToLower c ≠ "content-type" ∨ hdrTruthy v = true) →
      ∀ c', jsToLower c' = jsToLower c →
        (createMockGenerator now b o).get c' = some (joinHdr v)) ∧
    (∀ l : List String, joinHdr (.list l) = String.intercalate "," l) := by
  refine ⟨?_, ?_, fun l => rfl⟩
  · intro now b o k k' hkk
    rw [createMockGenerator_get, createMockGenerator_get, hkk]
  · intro now b o c v ho1 ho2 hedge c' hc'
    have hheads : (mergedForCloning b o).headers.getD [] =
        ((b.headers.getD []) ++ (b.requestHeaders.getD [])) ++ [(c, v)] := by
      simp [mergedForCloning, ho1, ho2, List.append_assoc]
    have hlast : rget (normalizedOf b o) (jsToLower c) = some v := by
      rw [normalizedOf, hheads, normalizeHeaders, List.map_append]
      simpa [normalizeHeaders] using
        rget_append_last
          (normalizeHeaders ((b.headers.getD []) ++ (b.requestHeaders.getD [])))
          (jsToLower c) v
    suffices hsuff : rget (finalHeadersOf b o) (jsToLower c) = some v by
      rw [createMockGenerator_get, hc', hsuff]
      rfl
    cases hf : (mergedForCloning b o).files with
    | none => rw [finalHeadersOf, hf]; exact hlast
    | some fs =>
      have hedge' : jsToLower c ≠ "content-type" ∨ hdrTruthy v = true := by
        rcases hedge with h | h | h
        · rw [hf] at h; exact Option.noConfusion h
        · exact Or.inl h
        · exact Or.inr h
      by_cases hceq : jsToLower c = "content-type"
      · have htr : hdrTruthy v = true := by
          rcases hedge' with h | h
          · exact absurd hceq h
          · exact h
        have hct : ctOf b o = some v := by
          rw [ctOf, ← hceq]
          exact hlast
        rw [finalHeadersOf, hf]
        rw [if_pos (by simp [hct, htr])]
        exact hlast
      · rw [finalHeadersOf, hf]
        by_cases hcond : ((ctOf b o).map hdrTruthy).getD false = true
        · rw [if_pos hcond]
          exact hlast
        · rw [if_neg hcond]
          rw [rget_append, rget_singleton]
          simp only [if_neg (Ne.symm hceq)]
          simpa [Option.orElse] using hlast

/-- Witness for the header-readback claim: a header supplied as
`X-ReQ-Id: abc` reads back as `abc` under a different casing, and
`Accept-Encoding: ['gzip','deflate','br']` reads back as
`"gzip,deflate,br"`. -/
theorem header_case_insensitive_readback_witness :
    (createMockGenerator 0 {}
        { headers := some [("X-ReQ-Id", .str "abc")] }).get "X-REQ-ID" =
      some "abc" ∧
      (createMockGenerator 0 {}
          { headers :=
              some [("Accept-Encoding",
                .list ["gzip", "deflate", "br"])] }).get "accept-ENCODING" =
        some "gzip,deflate,br" := by
  obtain ⟨_, hread, hjoin⟩ := header_case_insensitive_readback
  constructor
  · have h := hread 0 {} { headers := some [("X-ReQ-Id", .str "abc")] }
      "X-ReQ-Id" (.str "abc") rfl rfl (Or.inl (by decide)) "X-REQ-ID"
      (by decide)
    simpa [joinHdr] using h
  · have h := hread 0 {}
      { headers := some [("Accept-Encoding", .list ["gzip", "deflate", "br"])] }
      "Accept-Encoding" (.list ["gzip", "deflate", "br"]) rfl rfl
      (Or.inl (by decide)) "accept-ENCODING" (by decide)
    rw [h, hjoin]
    decide

/-!
## Heap model for the isolation guarantee

The pure data model above cannot express aliasing, so the isolation claim
is settled on a small heap model of the generator's mutable structures.
A factory call deep-clones the merged configuration (`structuredClone`)
before constructing the graph: at the heap level this materializes every
object node of the configuration's mapping fields (`state`, `headers`,
`cookies`, `files`) into freshly allocated cells, so two calls can share no
cell.  Mutation is field assignment on a cell. -/

/-- A heap value: a primitive, or a reference to a heap object. -/
inductive HeapVal : Type
  | prim (v : Val)
  | ref (a : Nat)
  deriving DecidableEq, Repr

/-- A heap object: fields mapped to heap values. -/
abbrev HObj := List (String × HeapVal)

/-- The store: contents of every address, plus the next fresh address. -/
structure Heap where
  mem : Nat → HObj
  next : Nat

/-- A configuration value as pure data (what `structuredClone` copies): a
primitive or a nested object. -/
inductive VTree : Type
  | prim (v : Val)
  | obj (fields : List (String × VTree))

/-- Allocate a fresh cell. -/
def Heap.alloc (h : Heap) (o : HObj) : Nat × Heap :=
  (h.next, ⟨fun a => if a = h.next then o else h.mem a, h.next + 1⟩)

mutual
/-- Materialize one configuration value: every object node of the tree gets
a freshly allocated cell (this is the defining property of a deep clone —
no cell of the result pre-exists). -/
def materialize : VTree → Heap → HeapVal × Heap
  | .prim v, h => (.prim v, h)
  | .obj fs, h =>
    let p := materializeFields fs h
    let q := p.2.alloc p.1
    (.ref q.1, q.2)

/-- Materialize the fields of an object in order. -/
def materializeFields : List (String × VTree) → Heap → HObj × Heap
  | [], h => ([], h)
  | (k, t) :: rest, h =>
    let p := materialize t h
    let q := materializeFields rest p.2
    ((k, p.1) :: q.1, q.2)
end

/-- Materialize a top-level object and return its address. -/
def materializeObj (fs : List (String × VTree)) (h : Heap) : Nat × Heap :=
  let p := materializeFields fs h
  p.2.alloc p.1

/-- The mutable cells a context owns: its state bag, request header store,
cookie store, and (when the files feature is in use) its files mapping. -/
structure CtxH where
  stateA : Nat
  headersA : Nat
  cookiesA : Nat
  filesA : Option Nat

/-- One factory call at the heap level: the merged configuration's mapping
fields are deep-cloned into entirely fresh cells (`structuredClone` of the
merged options happens before the graph is constructed), and the context is
wired to those cells. -/
def buildCtxHeap (stateCfg headersCfg cookiesCfg : List (String × VTree))
    (filesCfg : Option (List (String × VTree))) (h : Heap) : CtxH × Heap :=
  let ps := materializeObj stateCfg h
  let ph := materializeObj headersCfg ps.2
  let pc := materializeObj cookiesCfg ph.2
  match filesCfg with
  | some fcfg =>
    let pf := materializeObj fcfg pc.2
    (⟨ps.1, ph.1, pc.1, some pf.1⟩, pf.2)
  | none => (⟨ps.1, ph.1, pc.1, none⟩, pc.2)

/-- Mutation `obj[k] = v` on the cell at `a` (appending the binding, which
shadows any earlier binding of `k`). -/
def Heap.setField (h : Heap) (a : Nat) (k : String) (v : HeapVal) : Heap :=
  ⟨fun b => if b = a then h.mem a ++ [(k, v)] else h.mem b, h.next⟩

/-- Address `b` is reachable from address `a` in heap `h`. -/
inductive Reach (h : Heap) : Nat → Nat → Prop
  | refl (a : Nat) : Reach h a a
  | step {a b c : Nat} (k : String) :
      (k, HeapVal.ref b) ∈ h.mem a → Reach h b c → Reach h a c

/-- A mutable sub-structure of a context: any cell reachable from one of
its mapping-field cells. -/
def CtxReach (h : Heap) (c : CtxH) (a : Nat) : Prop :=
  Reach h c.stateA a ∨ Reach h c.headersA a ∨ Reach h c.cookiesA a ∨
    ∃ fa, c.filesA = some fa ∧ Reach h fa a

/-- Every reference of the object points into `[lo, hi)`. -/
def objRefsIn (o : HObj) (lo hi : Nat) : Prop :=
  ∀ k b, (k, HeapVal.ref b) ∈ o → lo ≤ b ∧ b < hi

theorem objRefsIn_mono {o : HObj} {lo hi lo' hi' : Nat}
    (h : objRefsIn o lo hi) (hlo : lo' ≤ lo) (hhi : hi ≤ hi') :
    objRefsIn o lo' hi' := fun k b hb =>
  ⟨le_trans hlo (h k b hb).1, lt_of_lt_of_le (h k b hb).2 hhi⟩

/-- A heap evolution that only allocates: the cursor advances, existing
cells are untouched, and every new cell's references stay among the new
cells. -/
def Seg (h h' : Heap) : Prop :=
  h.next ≤ h'.next ∧ (∀ a, a < h.next → h'.mem a = h.mem a) ∧
    (∀ a, h.next ≤ a → a < h'.next →
      objRefsIn (h'.mem a) h.next h'.next)

theorem seg_refl (h : Heap) : Seg h h :=
  ⟨le_refl _, fun _ _ => rfl, fun a ha ha' => absurd ha' (by omega)⟩

theorem seg_trans {h₀ h₁ h₂ : Heap} (s₁ : Seg h₀ h₁) (s₂ : Seg h₁ h₂) :
    Seg h₀ h₂ := by
  obtain ⟨m₁, f₁, r₁⟩ := s₁
  obtain ⟨m₂, f₂, r₂⟩ := s₂
  refine ⟨le_trans m₁ m₂, fun a ha => ?_, fun a ha ha' => ?_⟩
  · rw [f₂ a (by omega), f₁ a ha]
  · rcases Nat.lt_or_ge a h₁.next with h | h
    · rw [f₂ a h]
      exact objRefsIn_mono (r₁ a ha h) (le_refl _) m₂
    · exact objRefsIn_mono (r₂ a h ha') m₁ (le_refl _)

mutual
theorem materialize_spec (t : VTree) (h : Heap) :
    Seg h (materialize t h).2 ∧
      (∀ b, (materialize t h).1 = HeapVal.ref b →
        h.next ≤ b ∧ b < (materialize t h).2.next) := by
  cases t with
  | prim v =>
    exact ⟨seg_refl h, fun b hb => HeapVal.noConfusion hb⟩
  | obj fs =>
    obtain ⟨⟨hmono, hframe, hclosed⟩, hrefs⟩ := materializeFields_spec fs h
    constructor
    · refine ⟨?_, ?_, ?_⟩
      · simp only [materialize, Heap.alloc]
        omega
      · intro a ha
        simp only [materialize, Heap.alloc]
        rw [if_neg (by omega), hframe a ha]
      · intro a ha ha'
        simp only [materialize, Heap.alloc] at ha' ⊢
        by_cases heq : a = (materializeFields fs h).2.next
        · rw [if_pos heq]
          exact objRefsIn_mono hrefs (le_refl _) (by omega)
        · rw [if_neg heq]
          exact objRefsIn_mono
            (hclosed a ha (by omega)) (le_refl _) (by omega)
    · intro b hb
      simp only [materialize, Heap.alloc] at hb ⊢
      cases hb
      omega

theorem materializeFields_spec (fs : List (String × VTree)) (h : Heap) :
    Seg h (materializeFields fs h).2 ∧
      objRefsIn (materializeFields fs h).1 h.next
        (materializeFields fs h).2.next := by
  cases fs with
  | nil =>
    refine ⟨seg_refl h, fun k b hb => absurd hb (List.not_mem_nil _)⟩
  | cons p rest =>
    obtain ⟨k₀, t⟩ := p
    obtain ⟨s₁, hval⟩ := materialize_spec t h
    obtain ⟨s₂, hobj⟩ := materializeFields_spec rest (materialize t h).2
    refine ⟨seg_trans s₁ s₂, ?_⟩
    simp only [materializeFields]
    intro k b hb
    simp only [List.mem_cons] at hb
    rcases hb with hb | hb
    · rw [Prod.mk.injEq] at hb
      obtain ⟨hk, hv⟩ := hb
      have h1 := hval b hv.symm
      have h2 := s₂.1
      omega
    · have h1 := hobj k b hb
      have h2 := s₁.1
      omega
end

theorem materializeObj_spec (fs : List (String × VTree)) (h : Heap) :
    Seg h (materializeObj fs h).2 ∧
      h.next ≤ (materializeObj fs h).1 ∧
      (materializeObj fs h).1 < (materializeObj fs h).2.next := by
  obtain ⟨hseg, hval⟩ := materialize_spec (.obj fs) h
  exact ⟨hseg, hval _ rfl⟩

/-- The per-call merged configuration: the four mapping fields `state`,
`headers`, `cookies`, `files` that the generator deep-clones into its
context. -/
structure BuildCfg where
  state : List (String × VTree)
  headers : List (String × VTree)
  cookies : List (String × VTree)
  files : Option (List (String × VTree))

/-- One factory call on a heap, from a merged configuration. -/
def buildCall (c : BuildCfg) (h : Heap) : CtxH × Heap :=
  buildCtxHeap c.state c.headers c.cookies c.files h

/-- `a` is one of the context's own mapping-field cells. -/
def CtxRoot (c : CtxH) (a : Nat) : Prop :=
  a = c.stateA ∨ a = c.headersA ∨ a = c.cookiesA ∨ c.filesA = some a

theorem buildCall_spec (c : BuildCfg) (h : Heap) :
    Seg h (buildCall c h).2 ∧
      (∀ a, CtxRoot (buildCall c h).1 a →
        h.next ≤ a ∧ a < (buildCall c h).2.next) := by
  obtain ⟨s₁, b₁, b₁'⟩ := materializeObj_spec c.state h
  obtain ⟨s₂, b₂, b₂'⟩ :=
    materializeObj_spec c.headers (materializeObj c.state h).2
  obtain ⟨s₃, b₃, b₃'⟩ := materializeObj_spec c.cookies
    (materializeObj c.headers (materializeObj c.state h).2).2
  cases hfc : c.files with
  | none =>
    have hres : buildCall c h =
        (⟨(materializeObj c.state h).1,
          (materializeObj c.headers (materializeObj c.state h).2).1,
          (materializeObj c.cookies
            (materializeObj c.headers (materializeObj c.state h).2).2).1,
          none⟩,
          (materializeObj c.cookies
            (materializeObj c.headers (materializeObj c.state h).2).2).2) := by
      simp only [buildCall, buildCtxHeap, hfc]
    rw [hres]
    refine ⟨seg_trans s₁ (seg_trans s₂ s₃), ?_⟩
    simp only [CtxRoot]
    intro a ha
    have hm₂ := s₂.1
    have hm₃ := s₃.1
    rcases ha with rfl | rfl | rfl | hfa
    · omega
    · omega
    · omega
    · exact Option.noConfusion hfa
  | some fcfg =>
    obtain ⟨s₄, b₄, b₄'⟩ := materializeObj_spec fcfg
      (materializeObj c.cookies
        (materializeObj c.headers (materializeObj c.state h).2).2).2
    have hres : buildCall c h =
        (⟨(materializeObj c.state h).1,
          (materializeObj c.headers (materializeObj c.state h).2).1,
          (materializeObj c.cookies
            (materializeObj c.headers (materializeObj c.state h).2).2).1,
          some ((materializeObj fcfg
            (materializeObj c.cookies
              (materializeObj c.headers
                (materializeObj c.state h).2).2).2).1)⟩,
          (materializeObj fcfg
            (materializeObj c.cookies
              (materializeObj c.headers
                (materializeObj c.state h).2).2).2).2) := by
      simp only [buildCall, buildCtxHeap, hfc]
    rw [hres]
    refine ⟨seg_trans s₁ (seg_trans s₂ (seg_trans s₃ s₄)), ?_⟩
    simp only [CtxRoot]
    intro a ha
    have hm₂ := s₂.1
    have hm₃ := s₃.1
    have hm₄ := s₄.1
    rcases ha with rfl | rfl | rfl | hfa
    · omega
    · omega
    · omega
    · obtain rfl := (Option.some.injEq ..).mp hfa
      omega

theorem reach_in_range {h : Heap} {lo hi : Nat}
    (hclosed : ∀ x, lo ≤ x → x < hi → objRefsIn (h.mem x) lo hi) :
    ∀ {a b : Nat}, Reach h a b → lo ≤ a → a < hi → lo ≤ b ∧ b < hi := by
  intro a b hr
  induction hr with
  | refl a => exact fun h₁ h₂ => ⟨h₁, h₂⟩
  | step k hmem hr ih =>
    intro h₁ h₂
    have hb := hclosed _ h₁ h₂ _ _ hmem
    exact ih hb.1 hb.2

/-- **C2** Two contexts produced by two factory calls — the same or
different configurations, one call after the other on the same store —
share no mutable sub-structure: every cell reachable from the first
context's mapping fields (state, headers, cookies, files) lies in the first
call's allocation range, every cell reachable from the second context in
the second call's later range, so mutating any cell reachable from one
context leaves every cell reachable from the other context unchanged.
This is guaranteed by the deep clone: each call materializes the merged
configuration into entirely fresh cells. -/
theorem factory_calls_isolated (c₁ c₂ : BuildCfg) (h₀ : Heap) (a b : Nat)
    (k : String) (v : HeapVal)
    (ha : CtxReach (buildCall c₂ (buildCall c₁ h₀).2).2
      (buildCall c₁ h₀).1 a)
    (hb : CtxReach (buildCall c₂ (buildCall c₁ h₀).2).2
      (buildCall c₂ (buildCall c₁ h₀).2).1 b) :
    (((buildCall c₂ (buildCall c₁ h₀).2).2).setField a k v).mem b =
      ((buildCall c₂ (buildCall c₁ h₀).2).2).mem b := by
  obtain ⟨s₁, r₁⟩ := buildCall_spec c₁ h₀
  obtain ⟨s₂, r₂⟩ := buildCall_spec c₂ (buildCall c₁ h₀).2
  have hclosed₁ : ∀ x, h₀.next ≤ x → x < (buildCall c₁ h₀).2.next →
      objRefsIn ((buildCall c₂ (buildCall c₁ h₀).2).2.mem x) h₀.next
        (buildCall c₁ h₀).2.next := by
    intro x hx hx'
    rw [s₂.2.1 x hx']
    exact s₁.2.2 x hx hx'
  have hbound_a : h₀.next ≤ a ∧ a < (buildCall c₁ h₀).2.next := by
    rcases ha with hr | hr | hr | ⟨fa, hfa, hr⟩
    · have hroot := r₁ _ (Or.inl rfl)
      exact reach_in_range hclosed₁ hr hroot.1 hroot.2
    · have hroot := r₁ _ (Or.inr (Or.inl rfl))
      exact reach_in_range hclosed₁ hr hroot.1 hroot.2
    · have hroot := r₁ _ (Or.inr (Or.inr (Or.inl rfl)))
      exact reach_in_range hclosed₁ hr hroot.1 hroot.2
    · have hroot := r₁ _ (Or.inr (Or.inr (Or.inr hfa)))
      exact reach_in_range hclosed₁ hr hroot.1 hroot.2
  have hbound_b : (buildCall c₁ h₀).2.next ≤ b ∧
      b < (buildCall c₂ (buildCall c₁ h₀).2).2.next := by
    rcases hb with hr | hr | hr | ⟨fa, hfa, hr⟩
    · have hroot := r₂ _ (Or.inl rfl)
      exact reach_in_range s₂.2.2 hr hroot.1 hroot.2
    · have hroot := r₂ _ (Or.inr (Or.inl rfl))
      exact reach_in_range s₂.2.2 hr hroot.1 hroot.2
    · have hroot := r₂ _ (Or.inr (Or.inr (Or.inl rfl)))
      exact reach_in_range s₂.2.2 hr hroot.1 hroot.2
    · have hroot := r₂ _ (Or.inr (Or.inr (Or.inr hfa)))
      exact reach_in_range s₂.2.2 hr hroot.1 hroot.2
  have hne : b ≠ a := by omega
  simp [Heap.setField, hne]

/-- First configuration of the isolation witness: a state bag holding a
nested object (the case deep cloning exists for). -/
def wCfg1 : BuildCfg := ⟨[("u", .obj [("n", .prim (.num 1))])], [], [], none⟩

/-- Second configuration of the isolation witness. -/
def wCfg2 : BuildCfg := ⟨[("v", .prim (.num 2))], [], [], none⟩

/-- The empty store. -/
def wH0 : Heap := ⟨fun _ => [], 0⟩

/-- Witness for the isolation claim: mutate the first context's state bag;
the second context's state bag is unchanged. -/
theorem factory_calls_isolated_witness :
    ((buildCall wCfg2 (buildCall wCfg1 wH0).2).2.setField
        (buildCall wCfg1 wH0).1.stateA "z" (.prim (.num 9))).mem
      ((buildCall wCfg2 (buildCall wCfg1 wH0).2).1.stateA) =
      (buildCall wCfg2 (buildCall wCfg1 wH0).2).2.mem
        ((buildCall wCfg2 (buildCall wCfg1 wH0).2).1.stateA) :=
  factory_calls_isolated wCfg1 wCfg2 wH0 _ _ "z" (.prim (.num 9))
    (Or.inl (Reach.refl _)) (Or.inl (Reach.refl _))

end KoaMock
